import Mathlib

/-!
Verification of the rofld captioning service against its specification.

The development shallowly embeds the text-layout algorithms of
src/lib/util/text.rs (line breaking, auto-fit sizing), the template
handling of src/resources/templates.rs, and the configuration and
timeout logic of src/server/handlers/captioner.rs.

Pixel widths are modelled as exact rationals.  A font is modelled by the
metric functions it induces: a per-character horizontal advance
(char_width in the source), a layout-based measured width for whole
strings (text_width in the source), and the vertical ascent+line_gap
metric; all of these scale linearly with the text size, mirroring
rusttype scaled metrics.  The worst-case branch of break_single_line is
a genuine loop with no structural termination measure, so breaking is
defined with an explicit fuel parameter; returning none means the fuel
was exhausted.
-/

namespace Rofld

/-- Word-character predicate modelling the character class of the regex
word boundary used by break_single_line (ASCII fragment of the regex
class): alphanumeric characters and the underscore. -/
def isWordChar (c : Char) : Bool :=
  c.isAlphanum || c == '_'

/-- Split a line into the maximal runs of word / non-word characters,
modelling WORD_BOUNDARY.split with empty pieces filtered out
(text.rs line 382). -/
def wordSegments : List Char → List (List Char)
  | [] => []
  | c :: rest =>
    match wordSegments rest with
    | (d :: g) :: gs =>
      if isWordChar c == isWordChar d then (c :: d :: g) :: gs
      else [c] :: (d :: g) :: gs
    | gs => [c] :: gs

/-- Concatenation of a list of character lists. -/
def joinL (L : List (List Char)) : List Char :=
  L.foldr (fun a b => a ++ b) []

theorem joinL_nil : joinL [] = [] := rfl

theorem joinL_cons (a : List Char) (L : List (List Char)) :
    joinL (a :: L) = a ++ joinL L := rfl

theorem joinL_append (L M : List (List Char)) :
    joinL (L ++ M) = joinL L ++ joinL M := by
  induction L with
  | nil => simp [joinL_nil, joinL_cons]
  | cons a L ih => simp [joinL_cons, ih, List.append_assoc]

/-- Splitting into word segments loses no characters. -/
theorem joinL_wordSegments (s : List Char) : joinL (wordSegments s) = s := by
  induction s with
  | nil => rfl
  | cons c rest ih =>
    show joinL (wordSegments (c :: rest)) = c :: rest
    unfold wordSegments
    cases h : wordSegments rest with
    | nil =>
      simp only []
      rw [h] at ih
      simp [joinL_cons, joinL_nil, ← ih]
    | cons g gs =>
      cases g with
      | nil =>
        rw [h] at ih
        simp [joinL_cons, ← ih]
      | cons d g' =>
        rw [h] at ih
        by_cases hw : isWordChar c == isWordChar d
        · simp [hw, joinL_cons, ← ih]
        · simp only [hw]
          simp [joinL_cons, ← ih]

/-- Width metrics of one text style (a font at a concrete size):
char_width and text_width of text.rs specialised to that style. -/
structure StyleM where
  cw : Char → ℚ
  tw : List Char → ℚ

/-- Result of the inner shaving while-loop of break_single_line
(text.rs lines 429-444): remaining segment (reversed), its tracked
width, the carryover (in original character order) and its width. -/
structure ShaveRes where
  rem : List Char
  remW : ℚ
  carry : List Char
  carryW : ℚ
deriving DecidableEq

/-- The inner while-loop of the worst-case branch: pop characters from
the end of the segment (given reversed, so from the head) while
current_width + segment_width > line_width.  The None arm of the source
match (segment exhausted) sets the tracked width to 0. -/
def shave (st : StyleM) (lineWidth curW : ℚ) :
    List Char → ℚ → List Char → ℚ → ShaveRes
  | revSeg, segW, carry, carryW =>
    if curW + segW > lineWidth then
      match revSeg with
      | [] => ⟨[], 0, carry, carryW⟩
      | c :: rest =>
        shave st lineWidth curW rest (segW - st.cw c) (c :: carry) (carryW + st.cw c)
    else ⟨revSeg, segW, carry, carryW⟩

/-- State of the outer loop of break_single_line: finished lines, the
line under construction and its tracked width. -/
structure BState where
  result : List (List Char)
  curLine : List Char
  curW : ℚ
deriving DecidableEq

/-- The worst-case loop of break_single_line (text.rs lines 425-464):
shave the oversized segment, append the fitting head to the current
line, and retry the carryover as a new segment.  Fuel bounds the number
of iterations; none means the loop did not finish within the fuel. -/
def worstLoop (st : StyleM) (lineWidth : ℚ) :
    ℕ → List Char → ℚ → BState → Option BState
  | 0, _, _, _ => none
  | fuel + 1, seg, segW, b =>
    let o := shave st lineWidth b.curW seg.reverse segW [] 0
    let head := o.rem.reverse
    let line := b.curLine ++ head
    let w := b.curW + o.remW
    if o.carry = [] then some ⟨b.result, line, w⟩
    else worstLoop st lineWidth fuel o.carry o.carryW ⟨b.result ++ [line], [], 0⟩

/-- Process one word/whitespace segment exactly as the body of the
for-loop of break_single_line (text.rs lines 393-465). -/
def processSegment (st : StyleM) (lineWidth : ℚ) (fuel : ℕ)
    (b : BState) (seg : List Char) : Option BState :=
  let segW := st.tw seg
  if b.curW + segW < lineWidth then
    some ⟨b.result, b.curLine ++ seg, b.curW + segW⟩
  else if segW < lineWidth then
    let res := if b.curLine = [] then b.result else b.result ++ [b.curLine]
    if seg = [' '] then some ⟨res, [], 0⟩
    else some ⟨res, seg, segW⟩
  else
    worstLoop st lineWidth fuel seg segW b

/-- break_single_line (text.rs lines 377-471) with explicit fuel for
the worst-case loop; none means some worst-case loop failed to finish
within the fuel. -/
def breakSingleLineF (st : StyleM) (lineWidth : ℚ) (fuel : ℕ)
    (s : List Char) : Option (List (List Char)) := do
  let b ← (wordSegments s).foldlM (processSegment st lineWidth fuel) ⟨[], [], 0⟩
  pure (if b.curLine = [] then b.result else b.result ++ [b.curLine])

/-- Metrics induced by a font, at size 1; all metrics scale linearly
with the text size, mirroring rusttype scaled glyph metrics.  adv is
the horizontal advance backing char_width; twBase the layout-based
measured width backing text_width (it may include kerning adjustments
and so need not equal the sum of advances); ascentGap is
ascent + line_gap, backing Style::line_height. -/
structure FontMetrics where
  adv : Char → ℚ
  twBase : List Char → ℚ
  ascentGap : ℚ

/-- Measured width of a string at a given size (text_width). -/
def twAt (f : FontMetrics) (size : ℚ) (s : List Char) : ℚ :=
  size * f.twBase s

/-- Width of a character at a given size (char_width). -/
def cwAt (f : FontMetrics) (size : ℚ) (c : Char) : ℚ :=
  size * f.adv c

/-- Style::line_height at a given size: ascent + line_gap. -/
def lineHeightAt (f : FontMetrics) (size : ℚ) : ℚ :=
  size * f.ascentGap

/-- The style (pair of width functions) of a font at a given size. -/
def styleAt (f : FontMetrics) (size : ℚ) : StyleM :=
  ⟨cwAt f size, twAt f size⟩

/-- A font is additive when the measured width of every string is the
sum of the advances of its characters (no kerning adjustments). -/
def Additive (f : FontMetrics) : Prop :=
  ∀ s : List Char, f.twBase s = (s.map f.adv).sum

/-- Split on newline terminators the way str::lines does: pieces
between newline characters, without a trailing empty piece. -/
def splitNLAux : List Char → List Char → List (List Char)
  | [], acc => [acc.reverse]
  | c :: rest, acc =>
    if c = '\n' then acc.reverse :: splitNLAux rest []
    else splitNLAux rest (c :: acc)

/-- Remove one trailing carriage return, as str::lines does per line. -/
def stripCR (l : List Char) : List Char :=
  if l.getLast? = some '\r' then l.dropLast else l

/-- The logical lines of a string, modelling str::lines(). -/
def rustLines (s : List Char) : List (List Char) :=
  let ps := splitNLAux s []
  let ps := if ps.getLast? = some [] then ps.dropLast else ps
  ps.map stripCR

/-- break_lines (text.rs lines 369-373): split on explicit newlines,
then break every logical line to the target width. -/
def breakLinesF (st : StyleM) (lineWidth : ℚ) (fuel : ℕ)
    (s : List Char) : Option (List (List Char)) :=
  (rustLines s).foldlM
    (fun acc line => (breakSingleLineF st lineWidth fuel line).map (acc ++ ·)) []

/-- Maximum of a list of widths, 0 for the empty list, mirroring
iter().max().unwrap_or(0.0) in fit_text (text.rs lines 264-266). -/
def maxQ : List ℚ → ℚ
  | [] => 0
  | [w] => w
  | w :: ws => max w (maxQ ws)

/-- Default text size used by the auto-fit loops.
Modelled from the spec: the model module defining DEFAULT_TEXT_SIZE is
not part of the sources; spec scenario 2 fixes the default size at 96. -/
def DEFAULT_TEXT_SIZE : ℚ := 96

/-- The size attempted by the k-th iteration of the auto-fit loops:
the default size shrunk k times by the factor 0.9. -/
def fitSize (k : ℕ) : ℚ := DEFAULT_TEXT_SIZE * (9 / 10) ^ k

/-- Whether the text, broken into lines at the given size, fits the
rectangle: maximal measured line width within the rectangle width and
line count times line height within its height — exactly the check of
one fit_text iteration (text.rs lines 262-269).  none when line
breaking exhausts its fuel. -/
def fitsSize (f : FontMetrics) (W H : ℚ) (s : List Char) (fuel : ℕ)
    (size : ℚ) : Option Bool :=
  (breakLinesF (styleAt f size) W fuel s).map fun lines =>
    decide (maxQ (lines.map (twAt f size)) ≤ W ∧
      (lines.length : ℚ) * lineHeightAt f size ≤ H)

/-- The shrinking loop of fit_text (text.rs lines 260-281).  The first
component of the result pair is the size found (none for no fit), the
second records whether a warning was logged; the outer none means line
breaking ran out of fuel. -/
def fitTextLoop (f : FontMetrics) (W H : ℚ) (s : List Char) (fuel : ℕ) :
    ℚ → ℕ → Option (Option ℚ × Bool)
  | _, 0 => some (none, true)
  | size, iters + 1 =>
    match breakLinesF (styleAt f size) W fuel s with
    | none => none
    | some lines =>
      if maxQ (lines.map (twAt f size)) ≤ W ∧
          (lines.length : ℚ) * lineHeightAt f size ≤ H then
        some (some size, false)
      else
        let newSize := size * (9 / 10)
        if size ≤ newSize then some (none, true)
        else fitTextLoop f W H s fuel newSize iters

/-- fit_text (text.rs lines 241-290): None immediately for a
non-positive rectangle, otherwise up to 16 attempts starting from the
default size, each shrinking by 0.9. -/
def fitTextF (f : FontMetrics) (W H : ℚ) (s : List Char) (fuel : ℕ) :
    Option (Option ℚ × Bool) :=
  if W ≤ 0 ∨ H ≤ 0 then some (none, false)
  else fitTextLoop f W H s fuel DEFAULT_TEXT_SIZE 16

/-- The shrinking loop of fit_line (text.rs lines 314-327): shrink
while the measured single-line width exceeds the maximum width. -/
def fitLineLoop (f : FontMetrics) (maxWidth : ℚ) (s : List Char) :
    ℚ → ℕ → Option ℚ × Bool
  | _, 0 => (none, true)
  | size, iters + 1 =>
    if twAt f size s > maxWidth then
      let newSize := size * (9 / 10)
      if size ≤ newSize then (none, true)
      else fitLineLoop f maxWidth s newSize iters
    else (some size, false)

/-- fit_line (text.rs lines 301-336): None immediately for a
non-positive maximum width, otherwise at most 16 attempts. -/
def fitLineF (f : FontMetrics) (maxWidth : ℚ) (s : List Char) :
    Option ℚ × Bool :=
  if maxWidth ≤ 0 then (none, false)
  else fitLineLoop f maxWidth s DEFAULT_TEXT_SIZE 16

/-- Style::new (text.rs lines 102-107): aborts on a non-positive size;
the abort (panic) branch is modelled by none. -/
def styleNew (size : ℚ) : Option ℚ :=
  if size ≤ 0 then none else some size

/-- Resolution of an Auto caption size by the engine.
Modelled from the spec: the engine module is not part of the sources;
spec section 4.5 step 4 says a failed auto-fit falls back to the
default text size. -/
def resolveAutoSize (fitResult : Option ℚ) : ℚ :=
  fitResult.getD DEFAULT_TEXT_SIZE

/-- Std Duration as used for the task timeout: whole seconds plus
subsecond nanoseconds. -/
structure Duration where
  secs : ℕ
  nanos : ℕ
deriving DecidableEq

/-- Duration::as_secs: the whole-seconds component. -/
def Duration.asSecs (d : Duration) : ℕ := d.secs

/-- A duration is zero when both components are zero. -/
def Duration.isZero (d : Duration) : Prop := d.secs = 0 ∧ d.nanos = 0

instance (d : Duration) : Decidable d.isZero := by
  unfold Duration.isZero; infer_instance

/-- Whether Captioner::render wraps the spawned task with a deadline
(captioner.rs line 202): the check is max_duration.as_secs() > 0. -/
def wrapsDeadline (taskTimeout : Duration) : Bool :=
  decide (0 < taskTimeout.asSecs)

/-- Errors of the tokio timer (the variants distinguished by the
From impl in captioner.rs lines 225-232). -/
inductive TimerErr
  | noCapacity
  | tooLong
deriving DecidableEq

/-- tokio TimeoutError: either the deadline elapsed or the timer
itself failed. -/
inductive TimeoutErr
  | timedOut
  | timer (e : TimerErr)
deriving DecidableEq

/-- Outcome classification of a render request. -/
inductive RenderErr
  | caption
  | timeout
  | unavailable
deriving DecidableEq

/-- From TimeoutError for RenderError (captioner.rs lines 225-232):
a saturated timer maps to Unavailable, everything else to Timeout. -/
def renderErrFromTimeout : TimeoutErr → RenderErr
  | .timer .noCapacity => .unavailable
  | _ => .timeout

/-- Mutable encoder configuration of the engine (jpeg and gif
quality percentages). -/
structure EngineConfig where
  jpegQuality : ℕ
  gifQuality : ℕ
deriving DecidableEq

/-- Captioner::set_jpeg_quality (captioner.rs lines 142-150): reject
values outside (0, 100] without touching the stored value. -/
def setJpegQuality (cfg : EngineConfig) (q : ℕ) : Bool × EngineConfig :=
  if ¬(0 < q ∧ q ≤ 100) then (false, cfg)
  else (true, { cfg with jpegQuality := q })

/-- Captioner::set_gif_quality (captioner.rs lines 153-161): reject
values outside (0, 100] without touching the stored value. -/
def setGifQuality (cfg : EngineConfig) (q : ℕ) : Bool × EngineConfig :=
  if ¬(0 < q ∧ q ≤ 100) then (false, cfg)
  else (true, { cfg with gifQuality := q })

/-- Image formats relevant to template handling; Other stands for the
remaining formats of the image crate. -/
inductive ImageFormat
  | PNG
  | JPEG
  | GIF
  | Other
deriving DecidableEq

/-- DEFAULT_IMAGE_FORMAT (templates.rs line 16). -/
def DEFAULT_IMAGE_FORMAT : ImageFormat := ImageFormat.PNG

/-- An image macro template (templates.rs lines 21-26): a still image
with its source format, or a GIF animation (pixel contents are not
modelled; an animation is represented by its frame count). -/
inductive Template
  | Image (fmt : ImageFormat)
  | Animation (frames : ℕ)
deriving DecidableEq

/-- Template::preferred_format (templates.rs lines 79-89): natively
encodable still formats are kept, animations prefer GIF, and anything
else falls through to the default format. -/
def preferredFormat : Template → ImageFormat
  | .Image fmt =>
    match fmt with
    | .PNG => .PNG
    | .JPEG => .JPEG
    | _ => DEFAULT_IMAGE_FORMAT
  | .Animation _ => .GIF

/-- Format inference of Template::for_image (templates.rs lines
31-44): lowercase the file extension and match it, defaulting to the
default image format for unknown or missing extensions. -/
def formatFromExt (ext : Option (List Char)) : ImageFormat :=
  (ext.bind fun e =>
    let l := e.map Char.toLower
    if l = "jpg".data ∨ l = "jpeg".data then some ImageFormat.JPEG
    else if l = "png".data then some ImageFormat.PNG
    else if l = "gif".data then some ImageFormat.GIF
    else none).getD DEFAULT_IMAGE_FORMAT

/-- A template file on disk, as far as template loading inspects it:
its extension, whether it is a GIF, its frame count, and whether the
animation probe succeeds. -/
structure TemplateFile where
  ext : Option (List Char)
  isGif : Bool
  frames : ℕ
  gifCheckOk : Bool

/-- is_gif_animated.
Modelled from the spec: util/animated_gif.rs is not part of the
sources; per spec section 6, the probe reports whether a GIF has more
than one frame, and it may fail (none). -/
def isGifAnimated (file : TemplateFile) : Option Bool :=
  if file.gifCheckOk then some (1 < file.frames) else none

/-- TryFrom a path for Template (templates.rs lines 112-129): decode
as an animation when the file is a GIF and the probe reports it
animated (a failed probe counts as not animated, unwrap_or(false));
anything else decodes as a still with the format from the extension. -/
def tryFromFile (file : TemplateFile) : Template :=
  if file.isGif && ((isGifAnimated file).getD false) then
    Template.Animation file.frames
  else
    Template.Image (formatFromExt file.ext)

end Rofld

section RatReducibility

/- Batteries marks the arithmetic of Rat irreducible for the elaborator;
restore semireducibility so that concrete runs of the embedded algorithms
can be evaluated by kernel reduction. -/
set_option allowUnsafeReducibility true in
attribute [semireducible] Rat.mul Rat.add Rat.sub Rat.div Rat.inv Rat.neg
  Rat.ofScientific

end RatReducibility

namespace Rofld

/-- Non-whitespace characters of a string, in order. -/
def filterNW (s : List Char) : List Char :=
  s.filter (fun c => !c.isWhitespace)

/-- Sum of the char_width values of a string under a style. -/
def sumCW (st : StyleM) (s : List Char) : ℚ :=
  (s.map st.cw).sum

/-- A style is additive when text_width agrees with the sum of the
char_width values (a font without kerning adjustments). -/
def StyleAdditive (st : StyleM) : Prop :=
  ∀ s : List Char, st.tw s = sumCW st s

/-- A font with every advance equal to 10 and no kerning. -/
def fontTen : FontMetrics :=
  ⟨fun _ => 10, fun s => (s.map (fun _ => (10 : ℚ))).sum, 1⟩

/-- Advances of the font refuting auto-fit monotonicity. -/
def advNM : Char → ℚ := fun c =>
  if c = 'X' then 5 else if c = 'a' then 2 else if c = 'b' then 2
  else if c = '.' then 0 else 1

/-- An additive font on which greedy line breaking is not monotone in
the text size. -/
def fontNM : FontMetrics := ⟨advNM, fun s => (s.map advNM).sum, 1⟩

/-- A font with every advance equal to 1 and no kerning. -/
def fontOne : FontMetrics :=
  ⟨fun _ => 1, fun s => (s.map (fun _ => (1 : ℚ))).sum, 1⟩

theorem fontNM_additive : Additive fontNM := fun _ => rfl

theorem fontOne_additive : Additive fontOne := fun _ => rfl

/-- One iteration of the worst-case loop on the 1-character segment
that is wider than the line: all of it is shaved into the carryover,
an empty line is emitted, and the loop restarts in an equal state. -/
theorem worstLoop_wide_char_step (fuel : ℕ) (res : List (List Char)) :
    worstLoop (styleAt fontTen 1) 5 (fuel + 1) ['W'] 10 ⟨res, [], 0⟩ =
      worstLoop (styleAt fontTen 1) 5 fuel ['W'] 10 ⟨res ++ [[]], [], 0⟩ := by
  have hs : shave (styleAt fontTen 1) 5 0 ['W'] 10 [] 0 =
      ⟨[], 0, ['W'], 10⟩ := by decide
  simp only [worstLoop]
  norm_num [hs]

/-- The worst-case loop never finishes on a 1-character segment wider
than the line, whatever the fuel. -/
theorem worstLoop_wide_char (fuel : ℕ) :
    ∀ res, worstLoop (styleAt fontTen 1) 5 fuel ['W'] 10 ⟨res, [], 0⟩ = none := by
  induction fuel with
  | zero => intro res; rfl
  | succ n ih => intro res; rw [worstLoop_wide_char_step]; exact ih _

/-- C1.  The claim asserts that line breaking always terminates, with a
single character wider than the target width emitted as its own line.
The code does not do this: on the 1-character text W of width 10
against target width 5, break_single_line loops forever (the carryover
loop re-processes the same segment, emitting an empty line each time),
so no amount of fuel makes the embedded run finish. -/
theorem C1_break_single_line_nonterminating (fuel : ℕ) :
    breakSingleLineF (styleAt fontTen 1) 5 fuel ("W".data) = none := by
  show Option.bind
    ((wordSegments ("W".data)).foldlM
      (processSegment (styleAt fontTen 1) 5 fuel) ⟨[], [], 0⟩) _ = none
  rw [show wordSegments ("W".data) = [['W']] from rfl]
  show Option.bind (Option.bind
    (processSegment (styleAt fontTen 1) 5 fuel ⟨[], [], 0⟩ ['W']) _) _ = none
  rw [show processSegment (styleAt fontTen 1) 5 fuel ⟨[], [], 0⟩ ['W'] =
      worstLoop (styleAt fontTen 1) 5 fuel ['W'] 10 ⟨[], [], 0⟩ by
    norm_num [processSegment, styleAt, twAt, fontTen]]
  rw [worstLoop_wide_char fuel []]
  rfl

/-- Filtering non-whitespace characters distributes over append. -/
theorem filterNW_append (x y : List Char) :
    filterNW (x ++ y) = filterNW x ++ filterNW y := by
  simp [filterNW, List.filter_append]

/-- Shaving only moves characters from the segment into the carryover:
remaining head (un-reversed) followed by the carryover spells the
segment followed by the original carryover. -/
theorem shave_chars (st : StyleM) (W cur : ℚ) :
    ∀ (revSeg : List Char) (segW : ℚ) (carry : List Char) (carryW : ℚ),
      (shave st W cur revSeg segW carry carryW).rem.reverse ++
          (shave st W cur revSeg segW carry carryW).carry =
        revSeg.reverse ++ carry := by
  intro revSeg
  induction revSeg with
  | nil =>
    intro segW carry carryW
    rw [shave]
    by_cases h : cur + segW > W <;> simp [h]
  | cons c rest ih =>
    intro segW carry carryW
    rw [shave]
    by_cases h : cur + segW > W
    · simp only [if_pos h]
      rw [ih]
      simp
    · simp [if_neg h]

/-- Characters processed by the worst-case loop all end up in the
emitted lines or the current line, in order. -/
theorem worstLoop_chars (st : StyleM) (W : ℚ) :
    ∀ (fuel : ℕ) (seg : List Char) (segW : ℚ) (b b' : BState),
      worstLoop st W fuel seg segW b = some b' →
      joinL b'.result ++ b'.curLine = joinL b.result ++ (b.curLine ++ seg) := by
  intro fuel
  induction fuel with
  | zero => intro seg segW b b' h; exact absurd h (by simp [worstLoop])
  | succ n ih =>
    intro seg segW b b' h
    rw [worstLoop] at h
    have hchars := shave_chars st W b.curW seg.reverse segW [] 0
    rw [List.reverse_reverse, List.append_nil] at hchars
    by_cases hc : (shave st W b.curW seg.reverse segW [] 0).carry = []
    · rw [if_pos hc] at h
      cases h
      rw [hc, List.append_nil] at hchars
      simp [hchars, List.append_assoc]
    · rw [if_neg hc] at h
      have := ih _ _ _ _ h
      rw [this]
      simp only [joinL_append, joinL_cons, joinL_nil]
      rw [List.append_nil, List.nil_append, ← List.append_assoc, ← List.append_assoc,
        List.append_assoc _ _ (shave st W b.curW seg.reverse segW [] 0).carry, hchars]

/-- Processing one segment preserves the non-whitespace characters
accumulated so far followed by those of the segment. -/
theorem processSegment_chars (st : StyleM) (W : ℚ) (fuel : ℕ)
    (b b' : BState) (seg : List Char)
    (h : processSegment st W fuel b seg = some b') :
    filterNW (joinL b'.result ++ b'.curLine) =
      filterNW (joinL b.result ++ (b.curLine ++ seg)) := by
  rw [processSegment] at h
  by_cases h1 : b.curW + st.tw seg < W
  · rw [if_pos h1] at h
    cases h
    simp [List.append_assoc]
  · rw [if_neg h1] at h
    by_cases h2 : st.tw seg < W
    · rw [if_pos h2] at h
      by_cases h3 : seg = [' ']
      · rw [if_pos h3] at h
        cases h
        by_cases h4 : b.curLine = []
        · simp only [if_pos h4]
          rw [h3, h4]
          simp [filterNW, List.filter_append]
        · simp only [if_neg h4]
          rw [h3]
          simp [filterNW, joinL_append, joinL_cons, joinL_nil, List.filter_append]
      · rw [if_neg h3] at h
        cases h
        by_cases h4 : b.curLine = []
        · simp only [if_pos h4]
          rw [h4]
          simp
        · simp only [if_neg h4]
          simp [joinL_append, joinL_cons, joinL_nil, List.append_assoc]
    · rw [if_neg h2] at h
      rw [worstLoop_chars st W fuel seg (st.tw seg) b b' h]

/-- Folding over all segments preserves the non-whitespace characters. -/
theorem foldSegments_chars (st : StyleM) (W : ℚ) (fuel : ℕ) :
    ∀ (segs : List (List Char)) (b b' : BState),
      segs.foldlM (processSegment st W fuel) b = some b' →
      filterNW (joinL b'.result ++ b'.curLine) =
        filterNW (joinL b.result ++ (b.curLine ++ joinL segs)) := by
  intro segs
  induction segs with
  | nil =>
    intro b b' h
    cases h
    simp [joinL_nil]
  | cons seg rest ih =>
    intro b b' h
    rw [List.foldlM_cons] at h
    cases hmid : processSegment st W fuel b seg with
    | none => rw [hmid] at h; exact absurd h (by simp)
    | some bmid =>
      rw [hmid] at h
      simp only [Option.bind_eq_bind, Option.some_bind] at h
      have h2 := ih bmid b' h
      rw [h2, joinL_cons, ← List.append_assoc, filterNW_append,
        processSegment_chars st W fuel b bmid seg hmid, ← filterNW_append]
      simp [List.append_assoc]

/-- C4.  Concatenating the lines emitted by break_single_line
reproduces exactly the non-whitespace characters of the input, in their
original order (the only characters ever dropped are overflowing
single-space segments). -/
theorem C4_break_preserves_nonwhitespace (st : StyleM) (W : ℚ) (fuel : ℕ)
    (s : List Char) (L : List (List Char))
    (h : breakSingleLineF st W fuel s = some L) :
    filterNW (joinL L) = filterNW s := by
  rw [breakSingleLineF] at h
  cases hf : (wordSegments s).foldlM (processSegment st W fuel) ⟨[], [], 0⟩ with
  | none => rw [hf] at h; exact absurd h (by simp)
  | some b =>
    rw [hf] at h
    simp only [Option.bind_some, bind, Option.bind] at h
    have hL : joinL L = joinL b.result ++ b.curLine := by
      cases h
      by_cases hb : b.curLine = []
      · simp [if_pos hb, hb]
      · simp [if_neg hb, joinL_append, joinL_cons, joinL_nil]
    rw [hL]
    have := foldSegments_chars st W fuel (wordSegments s) ⟨[], [], 0⟩ b hf
    rw [this]
    simp [joinL_nil, joinL_wordSegments]

theorem sumCW_nil (st : StyleM) : sumCW st [] = 0 := rfl

theorem sumCW_cons (st : StyleM) (c : Char) (l : List Char) :
    sumCW st (c :: l) = st.cw c + sumCW st l := by
  simp [sumCW]

theorem sumCW_append (st : StyleM) (x y : List Char) :
    sumCW st (x ++ y) = sumCW st x + sumCW st y := by
  simp [sumCW]

theorem sumCW_reverse (st : StyleM) (l : List Char) :
    sumCW st l.reverse = sumCW st l := by
  simp [sumCW, List.sum_reverse]

/-- The shaving loop stops only once the head fits next to the current
line, or with the segment completely exhausted. -/
theorem shave_exit (st : StyleM) (W cur : ℚ) :
    ∀ (revSeg : List Char) (segW carryW : ℚ) (carry : List Char),
      cur + (shave st W cur revSeg segW carry carryW).remW ≤ W ∨
        ((shave st W cur revSeg segW carry carryW).rem = [] ∧
          (shave st W cur revSeg segW carry carryW).remW = 0) := by
  intro revSeg
  induction revSeg with
  | nil =>
    intro segW carryW carry
    rw [shave]
    by_cases h : cur + segW > W
    · simp [h]
    · simp only [if_neg h]
      left
      exact le_of_not_lt h
  | cons c rest ih =>
    intro segW carryW carry
    rw [shave]
    by_cases h : cur + segW > W
    · simp only [if_pos h]
      exact ih _ _ _
    · simp only [if_neg h]
      left
      exact le_of_not_lt h

/-- The width bookkeeping of the shaving loop is exact when widths are
per-character sums. -/
theorem shave_sums (st : StyleM) (W cur : ℚ) :
    ∀ (revSeg : List Char) (segW carryW : ℚ) (carry : List Char),
      segW = sumCW st revSeg → carryW = sumCW st carry →
      (shave st W cur revSeg segW carry carryW).remW =
          sumCW st (shave st W cur revSeg segW carry carryW).rem ∧
        (shave st W cur revSeg segW carry carryW).carryW =
          sumCW st (shave st W cur revSeg segW carry carryW).carry := by
  intro revSeg
  induction revSeg with
  | nil =>
    intro segW carryW carry hseg hcarry
    rw [shave]
    by_cases h : cur + segW > W <;> simp [h, hseg, hcarry, sumCW_nil]
  | cons c rest ih =>
    intro segW carryW carry hseg hcarry
    rw [shave]
    by_cases h : cur + segW > W
    · simp only [if_pos h]
      refine ih _ _ _ ?_ ?_
      · rw [hseg, sumCW_cons]; ring
      · rw [hcarry, sumCW_cons]; ring
    · simp only [if_neg h]
      exact ⟨hseg, hcarry⟩

/-- Invariant of the outer loop state: the tracked width is the exact
width of the current line, it never exceeds the target width, and every
emitted line has width within the target. -/
def WInv (st : StyleM) (W : ℚ) (b : BState) : Prop :=
  b.curW = sumCW st b.curLine ∧ b.curW ≤ W ∧
    ∀ l ∈ b.result, sumCW st l ≤ W

/-- The worst-case loop preserves the width invariant when the segment
width it is given is the per-character sum. -/
theorem worstLoop_width (st : StyleM) (W : ℚ) (h0 : 0 ≤ W) :
    ∀ (fuel : ℕ) (seg : List Char) (segW : ℚ) (b b' : BState),
      segW = sumCW st seg → WInv st W b →
      worstLoop st W fuel seg segW b = some b' → WInv st W b' := by
  intro fuel
  induction fuel with
  | zero => intro seg segW b b' _ _ h; exact absurd h (by simp [worstLoop])
  | succ n ih =>
    intro seg segW b b' hseg hinv h
    rw [worstLoop] at h
    obtain ⟨hw, hwle, hres⟩ := hinv
    have hsums := shave_sums st W b.curW seg.reverse segW 0 []
      (by rw [hseg, sumCW_reverse]) (by rw [sumCW_nil])
    have hexit := shave_exit st W b.curW seg.reverse segW 0 []
    have hlinesum : sumCW st (b.curLine ++
        (shave st W b.curW seg.reverse segW [] 0).rem.reverse) =
        b.curW + (shave st W b.curW seg.reverse segW [] 0).remW := by
      rw [sumCW_append, sumCW_reverse, ← hsums.1, ← hw]
    have hlinele : b.curW + (shave st W b.curW seg.reverse segW [] 0).remW ≤ W := by
      rcases hexit with h1 | h2
      · exact h1
      · rw [h2.2, add_zero]; exact hwle
    by_cases hc : (shave st W b.curW seg.reverse segW [] 0).carry = []
    · rw [if_pos hc] at h
      cases h
      exact ⟨hlinesum.symm, hlinele, hres⟩
    · rw [if_neg hc] at h
      refine ih _ _ _ _ hsums.2 ?_ h
      refine ⟨by rw [sumCW_nil], h0, ?_⟩
      intro l hl
      rcases List.mem_append.1 hl with hl1 | hl2
      · exact hres l hl1
      · rw [List.mem_singleton.1 hl2, hlinesum]
        exact hlinele

/-- Processing a segment preserves the width invariant for additive
styles. -/
theorem processSegment_width (st : StyleM) (W : ℚ)
    (hadd : StyleAdditive st) (h0 : 0 ≤ W) (fuel : ℕ)
    (b b' : BState) (seg : List Char)
    (hinv : WInv st W b)
    (h : processSegment st W fuel b seg = some b') : WInv st W b' := by
  obtain ⟨hw, hwle, hres⟩ := hinv
  rw [processSegment] at h
  by_cases h1 : b.curW + st.tw seg < W
  · rw [if_pos h1] at h
    cases h
    refine ⟨?_, le_of_lt h1, hres⟩
    rw [sumCW_append, hw, hadd]
  · rw [if_neg h1] at h
    have hresk : ∀ l ∈ (if b.curLine = [] then b.result
        else b.result ++ [b.curLine]), sumCW st l ≤ W := by
      by_cases h4 : b.curLine = []
      · rw [if_pos h4]; exact hres
      · rw [if_neg h4]
        intro l hl
        rcases List.mem_append.1 hl with hl1 | hl2
        · exact hres l hl1
        · rw [List.mem_singleton.1 hl2, ← hw]; exact hwle
    by_cases h2 : st.tw seg < W
    · rw [if_pos h2] at h
      by_cases h3 : seg = [' ']
      · rw [if_pos h3] at h
        cases h
        exact ⟨by rw [sumCW_nil], h0, hresk⟩
      · rw [if_neg h3] at h
        cases h
        exact ⟨(hadd seg).symm ▸ rfl, le_of_lt ((hadd seg) ▸ h2), hresk⟩
    · rw [if_neg h2] at h
      exact worstLoop_width st W h0 fuel seg (st.tw seg) b b' (hadd seg)
        ⟨hw, hwle, hres⟩ h

/-- The fold over all segments preserves the width invariant. -/
theorem foldSegments_width (st : StyleM) (W : ℚ)
    (hadd : StyleAdditive st) (h0 : 0 ≤ W) (fuel : ℕ) :
    ∀ (segs : List (List Char)) (b b' : BState),
      WInv st W b →
      segs.foldlM (processSegment st W fuel) b = some b' → WInv st W b' := by
  intro segs
  induction segs with
  | nil => intro b b' hinv h; cases h; exact hinv
  | cons seg rest ih =>
    intro b b' hinv h
    rw [List.foldlM_cons] at h
    cases hmid : processSegment st W fuel b seg with
    | none => rw [hmid] at h; exact absurd h (by simp)
    | some bmid =>
      rw [hmid] at h
      simp only [Option.bind_eq_bind, Option.some_bind] at h
      exact ih bmid b' (processSegment_width st W hadd h0 fuel b bmid seg hinv hmid) h

/-- For additive styles and a non-negative target width, every line
produced by break_single_line measures within the target width. -/
theorem breakSingleLine_width (st : StyleM) (W : ℚ)
    (hadd : StyleAdditive st) (h0 : 0 ≤ W) (fuel : ℕ)
    (s : List Char) (L : List (List Char))
    (h : breakSingleLineF st W fuel s = some L) :
    ∀ l ∈ L, st.tw l ≤ W := by
  rw [breakSingleLineF] at h
  cases hf : (wordSegments s).foldlM (processSegment st W fuel) ⟨[], [], 0⟩ with
  | none => rw [hf] at h; exact absurd h (by simp)
  | some b =>
    rw [hf] at h
    simp only [Option.bind_eq_bind, Option.some_bind, pure] at h
    have hinv : WInv st W b :=
      foldSegments_width st W hadd h0 fuel (wordSegments s) ⟨[], [], 0⟩ b
        ⟨by rw [sumCW_nil], h0, by intro l hl; exact absurd hl (List.not_mem_nil l)⟩ hf
    obtain ⟨hw, hwle, hres⟩ := hinv
    intro l hl
    rw [hadd]
    have hLmem : l ∈ b.result ∨ l = b.curLine := by
      cases h
      by_cases hb : b.curLine = []
      · rw [if_pos hb] at hl; exact Or.inl hl
      · rw [if_neg hb] at hl
        rcases List.mem_append.1 hl with hl1 | hl2
        · exact Or.inl hl1
        · exact Or.inr (List.mem_singleton.1 hl2)
    rcases hLmem with Hm | Hm
    · exact hres l Hm
    · rw [Hm, ← hw]; exact hwle

/-- For additive styles and a non-negative target width, every line
produced by break_lines measures within the target width. -/
theorem breakLines_width (st : StyleM) (W : ℚ)
    (hadd : StyleAdditive st) (h0 : 0 ≤ W) (fuel : ℕ)
    (s : List Char) (L : List (List Char))
    (h : breakLinesF st W fuel s = some L) :
    ∀ l ∈ L, st.tw l ≤ W := by
  rw [breakLinesF] at h
  suffices hgen : ∀ (lls : List (List Char)) (acc L : List (List Char)),
      lls.foldlM (fun acc line =>
        (breakSingleLineF st W fuel line).map (acc ++ ·)) acc = some L →
      (∀ l ∈ acc, st.tw l ≤ W) → ∀ l ∈ L, st.tw l ≤ W by
    exact hgen (rustLines s) [] L h (by intro l hl; exact absurd hl (List.not_mem_nil l))
  intro lls
  induction lls with
  | nil =>
    intro acc L h hacc
    cases h
    exact hacc
  | cons line rest ih =>
    intro acc L h hacc
    rw [List.foldlM_cons] at h
    cases hb : breakSingleLineF st W fuel line with
    | none => rw [hb] at h; exact absurd h (by simp)
    | some Li =>
      rw [hb] at h
      simp only [Option.map_some, Option.bind_eq_bind, Option.some_bind] at h
      refine ih (acc ++ Li) L h ?_
      intro l hl
      rcases List.mem_append.1 hl with hl1 | hl2
      · exact hacc l hl1
      · exact breakSingleLine_width st W hadd h0 fuel line Li hb l hl2

/-- A style scaled from an additive font is additive. -/
theorem styleAt_additive (f : FontMetrics) (z : ℚ) (hadd : Additive f) :
    StyleAdditive (styleAt f z) := by
  intro s
  show twAt f z s = sumCW (styleAt f z) s
  rw [twAt, hadd, sumCW]
  show z * (s.map f.adv).sum = (s.map (cwAt f z)).sum
  induction s with
  | nil => simp
  | cons c rest ih => simp [cwAt, ih, mul_add]

/-- The list maximum used by fit_text is bounded by any bound on the
elements, provided the bound is non-negative (empty-list case). -/
theorem maxQ_le (W : ℚ) (h0 : 0 ≤ W) :
    ∀ l : List ℚ, (∀ x ∈ l, x ≤ W) → maxQ l ≤ W := by
  intro l
  induction l with
  | nil => intro; rw [maxQ]; exact h0
  | cons w ws ih =>
    intro hb
    cases ws with
    | nil => exact hb w (List.mem_cons_self w [])
    | cons v vs =>
      show max w (maxQ (v :: vs)) ≤ W
      refine max_le (hb w (List.mem_cons_self w _)) (ih ?_)
      intro x hx
      exact hb x (List.mem_cons_of_mem w hx)

/-- C3 (amended).  The claim as stated is false (see the
counterexample): shrinking the size can increase the line count and
thereby break the height constraint.  What does hold is the width half
of fitting: for an additive font and a positive rectangle width, every
size whose line breaking terminates yields lines that all measure
within the rectangle width — in particular every smaller size than a
fitting one still satisfies the width constraint. -/
theorem C3_width_monotone (f : FontMetrics) (hadd : Additive f)
    (W H z z' : ℚ) (hW : 0 < W) (hz' : 0 < z') (hzz' : z' ≤ z)
    (s : List Char) (fuel fuel' : ℕ) (L L' : List (List Char))
    (hL : breakLinesF (styleAt f z) W fuel s = some L)
    (hfits : maxQ (L.map (twAt f z)) ≤ W ∧
      (L.length : ℚ) * lineHeightAt f z ≤ H)
    (hL' : breakLinesF (styleAt f z') W fuel' s = some L') :
    maxQ (L'.map (twAt f z')) ≤ W := by
  refine maxQ_le W (le_of_lt hW) _ ?_
  intro x hx
  obtain ⟨l, hl, rfl⟩ := List.mem_map.1 hx
  exact breakLines_width (styleAt f z') W (styleAt_additive f z' hadd)
    (le_of_lt hW) fuel' s L' hL' l hl

/-- C3 is refuted on the code: with the additive font fontNM and an
18 by 2 rectangle, size 1 fits (2 lines) but the smaller size 9/10
does not (3 lines, so the height constraint fails). -/
theorem C3_counterexample :
    fitsSize fontNM 18 2 ("a.XXabX.aaaba".data) 60 1 = some true ∧
    (0 : ℚ) < 9 / 10 ∧ (9 / 10 : ℚ) ≤ 1 ∧
    fitsSize fontNM 18 2 ("a.XXabX.aaaba".data) 60 (9 / 10) = some false :=
  ⟨by decide, by norm_num, by norm_num, by decide⟩

/-- Witness for the amended C3 at a concrete instance. -/
theorem C3_witness :
    maxQ (([("a.".data), ("XXabX.".data), ("aaaba".data)]).map
      (twAt fontNM (9 / 10))) ≤ 18 :=
  C3_width_monotone fontNM fontNM_additive 18 2 1 (9 / 10)
    (by norm_num) (by norm_num) (by norm_num)
    ("a.XXabX.aaaba".data) 60 60
    [("a.XXab".data), ("X.aaaba".data)]
    [("a.".data), ("XXabX.".data), ("aaaba".data)]
    (by decide) ⟨by decide, by decide⟩ (by decide)

/-- Full characterisation of the fit_text shrinking loop: starting from
a positive size z with k iterations left, a none result means every
attempted size failed the fit check (and the warning fired), and a some
result is the first attempted size that fits. -/
theorem fitTextLoop_spec (f : FontMetrics) (W H : ℚ) (s : List Char) (fuel : ℕ) :
    ∀ (k : ℕ) (z : ℚ) (r : Option ℚ) (w : Bool), 0 < z →
      fitTextLoop f W H s fuel z k = some (r, w) →
      (r = none → w = true ∧ ∀ i, i < k →
        fitsSize f W H s fuel (z * (9 / 10) ^ i) = some false) ∧
      (∀ y, r = some y → w = false ∧ ∃ i, i < k ∧ y = z * (9 / 10) ^ i ∧
        fitsSize f W H s fuel (z * (9 / 10) ^ i) = some true ∧
        ∀ j, j < i → fitsSize f W H s fuel (z * (9 / 10) ^ j) = some false) := by
  intro k
  induction k with
  | zero =>
    intro z r w hz h
    rw [fitTextLoop] at h
    cases h
    exact ⟨fun _ => ⟨rfl, fun i hi => absurd hi (Nat.not_lt_zero i)⟩,
      fun y hy => absurd hy (by simp)⟩
  | succ k ih =>
    intro z r w hz h
    rw [fitTextLoop] at h
    cases hbreak : breakLinesF (styleAt f z) W fuel s with
    | none => rw [hbreak] at h; exact absurd h (by simp)
    | some lines =>
      simp only [hbreak] at h
      have hfs : fitsSize f W H s fuel z =
          some (decide (maxQ (lines.map (twAt f z)) ≤ W ∧
            (lines.length : ℚ) * lineHeightAt f z ≤ H)) := by
        rw [fitsSize, hbreak]; rfl
      have hz0 : z * (9 / 10) ^ 0 = z := by ring
      by_cases hcond : maxQ (lines.map (twAt f z)) ≤ W ∧
          (lines.length : ℚ) * lineHeightAt f z ≤ H
      · rw [if_pos hcond] at h
        cases h
        constructor
        · intro hr; exact absurd hr (by simp)
        · intro y hy
          refine ⟨rfl, 0, Nat.succ_pos k, ?_, ?_, ?_⟩
          · rw [hz0]; exact (Option.some.inj hy).symm
          · rw [hz0, hfs]
            simp [hcond]
          · intro j hj; exact absurd hj (Nat.not_lt_zero j)
      · rw [if_neg hcond] at h
        have hguard : ¬ z ≤ z * (9 / 10) := by
          intro hle; nlinarith
        rw [if_neg hguard] at h
        have hz' : 0 < z * (9 / 10) := by positivity
        have IH := ih (z * (9 / 10)) r w hz' h
        have hfalse : fitsSize f W H s fuel (z * (9 / 10) ^ 0) = some false := by
          rw [hz0, hfs]
          simp [hcond]
        have hshift : ∀ i : ℕ, z * (9 / 10) ^ (i + 1) =
            z * (9 / 10) * (9 / 10) ^ i := by
          intro i; ring
        constructor
        · intro hr
          obtain ⟨hw, hall⟩ := IH.1 hr
          refine ⟨hw, ?_⟩
          intro i hi
          cases i with
          | zero => exact hfalse
          | succ j =>
            rw [hshift j]
            exact hall j (Nat.lt_of_succ_lt_succ hi)
        · intro y hy
          obtain ⟨hw, i, hik, hyi, hfit, hprev⟩ := IH.2 y hy
          refine ⟨hw, i + 1, Nat.succ_lt_succ hik, ?_, ?_, ?_⟩
          · rw [hyi, hshift i]
          · rw [hshift i]; exact hfit
          · intro j hj
            cases j with
            | zero => exact hfalse
            | succ j' =>
              rw [hshift j']
              exact hprev j' (Nat.lt_of_succ_lt_succ hj)

/-- Characterisation of fitTextF, shared by several results below. -/
theorem fitTextF_spec (f : FontMetrics) (W H : ℚ)
    (s : List Char) (fuel : ℕ) :
    (W ≤ 0 ∨ H ≤ 0 → fitTextF f W H s fuel = some (none, false)) ∧
    (0 < W → 0 < H → ∀ (r : Option ℚ) (w : Bool),
      fitTextF f W H s fuel = some (r, w) →
      (r = none → ∀ i, i < 16 →
        fitsSize f W H s fuel (fitSize i) = some false) ∧
      (∀ y, r = some y → ∃ i, i < 16 ∧ y = fitSize i ∧
        fitsSize f W H s fuel (fitSize i) = some true ∧
        ∀ j, j < i → fitsSize f W H s fuel (fitSize j) = some false)) := by
  constructor
  · intro hneg
    rw [fitTextF, if_pos hneg]
  · intro hW hH r w h
    rw [fitTextF, if_neg (by push_neg; exact ⟨hW, hH⟩)] at h
    have hspec := fitTextLoop_spec f W H s fuel 16 DEFAULT_TEXT_SIZE r w
      (by norm_num [DEFAULT_TEXT_SIZE]) h
    constructor
    · intro hr i hi
      have := (hspec.1 hr).2 i hi
      rwa [fitSize]
    · intro y hy
      obtain ⟨hw2, i, hik, hyi, hfit, hprev⟩ := hspec.2 y hy
      refine ⟨i, hik, by rwa [fitSize], by rwa [fitSize], ?_⟩
      intro j hj
      rw [fitSize]
      exact hprev j hj

/-- C5.  fit_text returns the no-fit result for a non-positive
rectangle; otherwise it attempts the sizes DEFAULT_TEXT_SIZE times
0.9 to the k in order, returns the first attempted size whose broken
lines fit both dimensions, and returns the no-fit result exactly when
none of the 16 attempted sizes fits.  Over exact rationals the
underflow guard (new_size at least size) can never fire, because the
attempted sizes stay positive and strictly decrease. -/
theorem C5_fit_text_characterization (f : FontMetrics) (W H : ℚ)
    (s : List Char) (fuel : ℕ) :
    (W ≤ 0 ∨ H ≤ 0 → fitTextF f W H s fuel = some (none, false)) ∧
    (0 < W → 0 < H → ∀ (r : Option ℚ) (w : Bool),
      fitTextF f W H s fuel = some (r, w) →
      (r = none → ∀ i, i < 16 →
        fitsSize f W H s fuel (fitSize i) = some false) ∧
      (∀ y, r = some y → ∃ i, i < 16 ∧ y = fitSize i ∧
        fitsSize f W H s fuel (fitSize i) = some true ∧
        ∀ j, j < i → fitsSize f W H s fuel (fitSize j) = some false)) :=
  fitTextF_spec f W H s fuel

/-- Witness for C5: on a 200 by 200 rectangle with the all-ones font,
the very first attempted size 96 already fits. -/
theorem C5_witness : ∃ i, i < 16 ∧ (96 : ℚ) = fitSize i ∧
    fitsSize fontOne 200 200 ("a".data) 5 (fitSize i) = some true ∧
    ∀ j, j < i → fitsSize fontOne 200 200 ("a".data) 5 (fitSize j) = some false :=
  ((C5_fit_text_characterization fontOne 200 200 ("a".data) 5).2
    (by norm_num) (by norm_num) (some 96) false (by decide)).2 96 rfl

/-- C2 (amended).  When every one of the 16 attempted sizes fails the
fit check, fit_text logs a warning and returns the no-fit result
(None), contrary to the claim that it does not; the engine then falls
back to the (positive) default text size, so the caption is still
rendered, at the default size rather than the last attempted one. -/
theorem C2_exhausted_autofit (f : FontMetrics) (W H : ℚ) (s : List Char)
    (fuel : ℕ) (hW : 0 < W) (hH : 0 < H) (r : Option ℚ) (w : Bool)
    (h : fitTextF f W H s fuel = some (r, w))
    (hfail : ∀ i, i < 16 → fitsSize f W H s fuel (fitSize i) = some false) :
    r = none ∧ w = true ∧ resolveAutoSize r = DEFAULT_TEXT_SIZE ∧
      0 < resolveAutoSize r := by
  have hr : r = none := by
    cases r with
    | none => rfl
    | some y =>
      obtain ⟨i, hik, hyi, hfit, _⟩ :=
        ((fitTextF_spec f W H s fuel).2 hW hH (some y) w h).2 y rfl
      rw [hfail i hik] at hfit
      exact absurd hfit (by simp)
  subst hr
  rw [fitTextF, if_neg (by push_neg; exact ⟨hW, hH⟩)] at h
  have hspec := fitTextLoop_spec f W H s fuel 16 DEFAULT_TEXT_SIZE none w
    (by norm_num [DEFAULT_TEXT_SIZE]) h
  refine ⟨rfl, (hspec.1 rfl).1, rfl, ?_⟩
  show (0 : ℚ) < DEFAULT_TEXT_SIZE
  norm_num [DEFAULT_TEXT_SIZE]

set_option maxHeartbeats 4000000 in
/-- C2 is refuted on the code as claimed: with the all-ones font, a
200 by 1/2 rectangle fails the height check at all 16 sizes, and
fit_text then returns the no-fit result (with the warning logged),
rather than rendering at the last attempted size. -/
theorem C2_counterexample :
    fitTextF fontOne 200 (1 / 2) ("a".data) 5 = some (none, true) := by
  decide

set_option maxHeartbeats 4000000 in
/-- Witness for the amended C2 at the same concrete instance. -/
theorem C2_witness :
    (none : Option ℚ) = none ∧ true = true ∧
      resolveAutoSize none = DEFAULT_TEXT_SIZE ∧
      0 < resolveAutoSize (none : Option ℚ) :=
  C2_exhausted_autofit fontOne 200 (1 / 2) ("a".data) 5
    (by norm_num) (by norm_num) none true (by decide) (by decide)

/-- The fit_line loop only ever returns positive sizes when started
from a positive size. -/
theorem fitLineLoop_pos (f : FontMetrics) (mw : ℚ) (s : List Char) :
    ∀ (k : ℕ) (z y : ℚ) (w : Bool), 0 < z →
      fitLineLoop f mw s z k = (some y, w) → 0 < y := by
  intro k
  induction k with
  | zero => intro z y w hz h; rw [fitLineLoop] at h; exact absurd h (by simp)
  | succ k ih =>
    intro z y w hz h
    rw [fitLineLoop] at h
    by_cases hcond : twAt f z s > mw
    · rw [if_pos hcond] at h
      have hguard : ¬ z ≤ z * (9 / 10) := fun hle => by nlinarith
      rw [if_neg hguard] at h
      exact ih (z * (9 / 10)) y w (by positivity) h
    · rw [if_neg hcond] at h
      cases h
      exact hz

/-- C10.  Style::new aborts exactly on non-positive sizes (none models
the panic branch); every size of the auto-fit schedule is positive, and
every size actually returned by fit_text or fit_line is positive, so
the abort branch is unreachable for internally generated sizes. -/
theorem C10_style_new_guard :
    (∀ z : ℚ, z ≤ 0 → styleNew z = none) ∧
    (∀ z : ℚ, 0 < z → styleNew z = some z) ∧
    (∀ k : ℕ, 0 < fitSize k ∧ styleNew (fitSize k) = some (fitSize k)) ∧
    (∀ (f : FontMetrics) (W H : ℚ) (s : List Char) (fuel : ℕ)
      (z : ℚ) (w : Bool),
      fitTextF f W H s fuel = some (some z, w) → 0 < z ∧ styleNew z = some z) ∧
    (∀ (f : FontMetrics) (mw : ℚ) (s : List Char) (z : ℚ) (w : Bool),
      fitLineF f mw s = (some z, w) → 0 < z ∧ styleNew z = some z) := by
  have hpos : ∀ z : ℚ, 0 < z → styleNew z = some z := by
    intro z hz
    rw [styleNew, if_neg (not_le.2 hz)]
  have hfitpos : ∀ k : ℕ, 0 < fitSize k := by
    intro k
    rw [fitSize]
    have h96 : (0 : ℚ) < DEFAULT_TEXT_SIZE := by norm_num [DEFAULT_TEXT_SIZE]
    positivity
  refine ⟨?_, hpos, ?_, ?_, ?_⟩
  · intro z hz
    rw [styleNew, if_pos hz]
  · intro k
    exact ⟨hfitpos k, hpos _ (hfitpos k)⟩
  · intro f W H s fuel z w h
    by_cases hneg : W ≤ 0 ∨ H ≤ 0
    · rw [fitTextF, if_pos hneg] at h
      exact absurd h (by simp)
    · push_neg at hneg
      obtain ⟨i, _, hyi, _, _⟩ :=
        ((fitTextF_spec f W H s fuel).2 hneg.1 hneg.2
          (some z) w h).2 z rfl
      have : 0 < z := hyi ▸ hfitpos i
      exact ⟨this, hpos z this⟩
  · intro f mw s z w h
    rw [fitLineF] at h
    by_cases hmw : mw ≤ 0
    · rw [if_pos hmw] at h
      exact absurd h (by simp)
    · rw [if_neg hmw] at h
      have : 0 < z := fitLineLoop_pos f mw s 16 DEFAULT_TEXT_SIZE z w
        (by norm_num [DEFAULT_TEXT_SIZE]) h
      exact ⟨this, hpos z this⟩

/-- Witness for C10 at concrete sizes. -/
theorem C10_witness :
    styleNew 0 = none ∧ styleNew 96 = some 96 ∧
      (0 < fitSize 2 ∧ styleNew (fitSize 2) = some (fitSize 2)) ∧
      (0 < (96 : ℚ) ∧ styleNew 96 = some 96) ∧
      (0 < (96 : ℚ) ∧ styleNew 96 = some 96) :=
  ⟨C10_style_new_guard.1 0 le_rfl,
   C10_style_new_guard.2.1 96 (by norm_num),
   C10_style_new_guard.2.2.1 2,
   C10_style_new_guard.2.2.2.1 fontOne 200 200 ("a".data) 5 96 false (by decide),
   C10_style_new_guard.2.2.2.2 fontOne 200 ("a".data) 96 false (by decide)⟩

/-- C6 is refuted as stated: a timeout of half a second is non-zero,
yet render does not wrap the task with a deadline, because the check
is on whole seconds only. -/
theorem C6_counterexample :
    ¬ (Duration.mk 0 500000000).isZero ∧
      wrapsDeadline (Duration.mk 0 500000000) = false := by
  constructor
  · intro h
    exact absurd h.2 (by norm_num)
  · rfl

/-- C6 (amended).  render wraps the submitted task with a deadline iff
the configured task_timeout is at least one whole second (as_secs
positive) — a non-zero sub-second timeout is treated as disabled; a
timeout error maps to Timeout, except a saturated timer (NoCapacity),
which maps to Unavailable. -/
theorem C6_timeout_wrapper (d : Duration) :
    (wrapsDeadline d = true ↔ 0 < d.asSecs) ∧
    renderErrFromTimeout TimeoutErr.timedOut = RenderErr.timeout ∧
    renderErrFromTimeout (TimeoutErr.timer TimerErr.noCapacity) =
      RenderErr.unavailable ∧
    renderErrFromTimeout (TimeoutErr.timer TimerErr.tooLong) =
      RenderErr.timeout := by
  refine ⟨?_, rfl, rfl, rfl⟩
  rw [wrapsDeadline]
  exact decide_eq_true_iff

/-- C7.  The preferred output format is GIF for animations, the source
format for stills loaded from PNG or JPEG, and the default PNG for
every other still source format. -/
theorem C7_preferred_format :
    (∀ n : ℕ, preferredFormat (Template.Animation n) = ImageFormat.GIF) ∧
    preferredFormat (Template.Image ImageFormat.PNG) = ImageFormat.PNG ∧
    preferredFormat (Template.Image ImageFormat.JPEG) = ImageFormat.JPEG ∧
    preferredFormat (Template.Image ImageFormat.GIF) = ImageFormat.PNG ∧
    preferredFormat (Template.Image ImageFormat.Other) = ImageFormat.PNG :=
  ⟨fun _ => rfl, rfl, rfl, rfl, rfl⟩

/-- C8.  When the animation probe succeeds, template loading decodes a
file as an Animation iff it is a GIF with more than one frame; every
other file becomes a still whose format comes from the lowercased file
extension, with PNG as the default for unknown extensions. -/
theorem C8_template_loading (file : TemplateFile)
    (hp : file.gifCheckOk = true) :
    ((∃ n, tryFromFile file = Template.Animation n) ↔
      (file.isGif = true ∧ 1 < file.frames)) ∧
    (file.isGif = true ∧ 1 < file.frames →
      tryFromFile file = Template.Animation file.frames) ∧
    (¬(file.isGif = true ∧ 1 < file.frames) →
      tryFromFile file = Template.Image (formatFromExt file.ext)) ∧
    formatFromExt (some ("jpg".data)) = ImageFormat.JPEG ∧
    formatFromExt (some ("JPeg".data)) = ImageFormat.JPEG ∧
    formatFromExt (some ("png".data)) = ImageFormat.PNG ∧
    formatFromExt (some ("gif".data)) = ImageFormat.GIF ∧
    formatFromExt (some ("webp".data)) = ImageFormat.PNG ∧
    formatFromExt none = ImageFormat.PNG := by
  have hcases : (file.isGif && ((isGifAnimated file).getD false)) = true ↔
      (file.isGif = true ∧ 1 < file.frames) := by
    rw [isGifAnimated, if_pos hp]
    simp [Bool.and_eq_true, decide_eq_true_iff]
  refine ⟨?_, ?_, ?_, by decide, by decide, by decide, by decide, by decide, rfl⟩
  · constructor
    · rintro ⟨n, hn⟩
      by_cases hb : (file.isGif && ((isGifAnimated file).getD false)) = true
      · exact hcases.1 hb
      · rw [tryFromFile, if_neg hb] at hn
        exact absurd hn (by simp)
    · intro hgif
      exact ⟨file.frames, by rw [tryFromFile, if_pos (hcases.2 hgif)]⟩
  · intro hgif
    rw [tryFromFile, if_pos (hcases.2 hgif)]
  · intro hnot
    rw [tryFromFile, if_neg (fun hb => hnot (hcases.1 hb))]

/-- Witness for C8: a 3-frame GIF loads as an Animation, a 1-frame
JPEG file loads as a still with the JPEG format. -/
theorem C8_witness :
    (∃ n, tryFromFile ⟨some ("gif".data), true, 3, true⟩ =
      Template.Animation n) ∧
    tryFromFile ⟨some ("jpg".data), false, 1, true⟩ =
      Template.Image (formatFromExt (some ("jpg".data))) :=
  ⟨(C8_template_loading ⟨some ("gif".data), true, 3, true⟩ rfl).1.mpr
      ⟨rfl, by norm_num⟩,
   (C8_template_loading ⟨some ("jpg".data), false, 1, true⟩ rfl).2.2.1
      (fun h => by exact absurd h.1 (by simp))⟩

/-- C9.  The quality setters reject every value outside (0, 100]
without touching the stored configuration, and store any value inside
the range, reporting success. -/
theorem C9_quality_setters (cfg : EngineConfig) (q : ℕ) :
    ((q = 0 ∨ 100 < q) →
      setJpegQuality cfg q = (false, cfg) ∧
        setGifQuality cfg q = (false, cfg)) ∧
    (1 ≤ q → q ≤ 100 →
      setJpegQuality cfg q = (true, { cfg with jpegQuality := q }) ∧
        setGifQuality cfg q = (true, { cfg with gifQuality := q })) := by
  constructor
  · intro hbad
    have hno : ¬(0 < q ∧ q ≤ 100) := by
      rcases hbad with h0 | h100
      · intro hc; rw [h0] at hc; exact absurd hc.1 (by norm_num)
      · intro hc; exact absurd hc.2 (not_le.2 h100)
    exact ⟨by rw [setJpegQuality, if_pos hno],
      by rw [setGifQuality, if_pos hno]⟩
  · intro h1 h100
    have hyes : ¬¬(0 < q ∧ q ≤ 100) := not_not.2 ⟨h1, h100⟩
    exact ⟨by rw [setJpegQuality, if_neg hyes],
      by rw [setGifQuality, if_neg hyes]⟩

/-- Witness for C9 at the boundary values 0, 101, 1 and 100. -/
theorem C9_witness :
    (setJpegQuality ⟨80, 60⟩ 0 = (false, ⟨80, 60⟩) ∧
      setGifQuality ⟨80, 60⟩ 0 = (false, ⟨80, 60⟩)) ∧
    (setJpegQuality ⟨80, 60⟩ 101 = (false, ⟨80, 60⟩) ∧
      setGifQuality ⟨80, 60⟩ 101 = (false, ⟨80, 60⟩)) ∧
    (setJpegQuality ⟨80, 60⟩ 1 = (true, ⟨1, 60⟩) ∧
      setGifQuality ⟨80, 60⟩ 1 = (true, ⟨80, 1⟩)) ∧
    (setJpegQuality ⟨80, 60⟩ 100 = (true, ⟨100, 60⟩) ∧
      setGifQuality ⟨80, 60⟩ 100 = (true, ⟨80, 100⟩)) :=
  ⟨(C9_quality_setters ⟨80, 60⟩ 0).1 (Or.inl rfl),
   (C9_quality_setters ⟨80, 60⟩ 101).1 (Or.inr (by norm_num)),
   (C9_quality_setters ⟨80, 60⟩ 1).2 le_rfl (by norm_num),
   (C9_quality_setters ⟨80, 60⟩ 100).2 (by norm_num) le_rfl⟩

/-- Witness for C4 at a concrete breaking run that exercises the
worst-case branch of break_single_line. -/
theorem C4_witness :
    filterNW (joinL [("a.XXab".data), ("X.aaaba".data)]) =
      filterNW ("a.XXabX.aaaba".data) :=
  C4_break_preserves_nonwhitespace (styleAt fontNM 1) 18 60
    ("a.XXabX.aaaba".data) [("a.XXab".data), ("X.aaaba".data)] (by decide)

end Rofld
